import Mathlib

/-!
Verification development for the RecSys repository (CUR decomposition,
energy-truncated SVD, k-NN collaborative filtering, and evaluation metrics).

Modelling conventions, used uniformly below:

* A dense numpy matrix is a `List (List ℚ)` of its rows; matrix entries are
  modelled as exact rationals (the float inputs of the program are rationals).
* Out-of-range accesses use `List.getD` with default `0`; every theorem is
  stated with hypotheses keeping accesses in range, so the default is inert.
* A float division whose denominator is zero produces `nan` (for `0/0`) or
  `inf` (for `x/0`) in numpy, silently.  Such divisions are modelled with
  `Option`: `none` stands for the non-finite result.  Divisions that can be
  shown to have nonzero denominators are modelled with ordinary field
  division.
* `np.sqrt` is modelled by `Real.sqrt`, so scaled matrices (CUR's C, R, W)
  and cosine similarities live in `ℝ`.  A cosine-similarity entry is `nan`
  exactly when a zero user row makes its denominator zero (then the
  numerator is zero too); since `np.argsort` orders `nan` after every
  finite float, similarity values are modelled in `WithTop ℝ` with `⊤`
  standing for `nan`: finite values and sort positions are both faithful.
* `np.random.choice(n, r, replace=False, p)` is modelled by quantifying over
  the drawn index list, constrained to the contract of a without-replacement
  draw: indices are pairwise distinct and in range.  The distributional
  weighting itself is outside a deterministic shallow embedding.
* `np.argsort` (ascending; `[::-1]` reverses it) is modelled by
  `List.insertionSort` on the index list.  numpy's default quicksort is not
  stable, so on rows with tied values the order of tied indices is
  unspecified; theorems that depend on tie order carry a distinctness or
  strict-sortedness hypothesis, under which every sort agrees.
-/

namespace RecSys

/-- Division as numpy performs it on floats: a zero denominator silently
yields a non-finite value (`nan` for `0/0`), modelled by `none`. -/
def qdiv (x y : ℚ) : Option ℚ := if y = 0 then none else some (x / y)

/-- Number of columns of a (rectangular) matrix, i.e. length of its first row. -/
def numCols (A : List (List ℚ)) : ℕ := (A.headD []).length

/-- `np.sum(A**2, axis=1)`: per-row sums of squared entries
(`CUR.get_probabilities`, src/CUR_all.py line 180). -/
def rowSq (A : List (List ℚ)) : List ℚ :=
  A.map (fun row => (row.map (fun x => x * x)).sum)

/-- `np.sum(A**2, axis=0)`: per-column sums of squared entries
(`CUR.get_probabilities`, src/CUR_all.py line 182). -/
def colSq (A : List (List ℚ)) : List ℚ :=
  (List.range (numCols A)).map (fun j => (A.map (fun row => (row.getD j 0) * (row.getD j 0))).sum)

/-- Total squared mass `sum(A**2)` of the matrix. -/
def frobSq (A : List (List ℚ)) : ℚ := (rowSq A).sum

/-- `CUR.get_probabilities` (src/CUR_all.py lines 173-184): squared-norm
sampling probabilities, each vector normalised by its own total.  The
normalising division is the numpy float division `qdiv`, so a zero matrix
silently produces `nan` entries (`none`) rather than an error. -/
def get_probabilities (A : List (List ℚ)) : List (Option ℚ) × List (Option ℚ) :=
  ((rowSq A).map (fun x => qdiv x (rowSq A).sum),
   (colSq A).map (fun x => qdiv x (colSq A).sum))

/-- `np.count_nonzero` on a matrix. -/
def countNonzero (A : List (List ℚ)) : ℕ :=
  (A.map (fun row => (row.filter (fun x => x ≠ 0)).length)).sum

/-- `((matrix_np - pred)**2).sum(where=matrix_np != 0)`: sum of squared
errors over the observed (nonzero) entries of the ground truth
(`Dataset.RMSE_training`, src/CUR_all.py line 44). -/
def sseObs (T P : List (List ℚ)) : ℚ :=
  ((List.range T.length).map (fun i =>
    ((List.range ((T.getD i []).length)).map (fun j =>
      if (T.getD i []).getD j 0 ≠ 0
      then ((T.getD i []).getD j 0 - (P.getD i []).getD j 0)
            * ((T.getD i []).getD j 0 - (P.getD i []).getD j 0)
      else 0)).sum)).sum

/-- `Dataset.RMSE_training` (src/CUR_all.py lines 39-44):
`sqrt(sse / count_nonzero)`.  The division is numpy float division, so a
ground-truth matrix with no nonzero entry yields `nan` (`none`). -/
noncomputable def RMSE_training (T P : List (List ℚ)) : Option ℝ :=
  (qdiv (sseObs T P) (countNonzero T : ℚ)).map (fun q : ℚ => Real.sqrt (q : ℝ))

section Helpers

/-- Bridge between list sums over `List.range` and `Finset.range` sums. -/
lemma sum_map_range (f : ℕ → ℚ) (n : ℕ) :
    ((List.range n).map f).sum = ∑ i ∈ Finset.range n, f i := by
  induction n with
  | zero => simp
  | succ n ih => rw [List.range_succ, Finset.sum_range_succ, List.map_append,
      List.sum_append, ih]; simp

lemma sum_map_div (l : List ℚ) (t : ℚ) :
    (l.map (fun x => x / t)).sum = l.sum / t := by
  induction l with
  | nil => simp
  | cons x xs ih => simp [ih, add_div]

lemma sum_sq_nonneg (l : List ℚ) : 0 ≤ (l.map (fun x => x * x)).sum := by
  apply List.sum_nonneg
  intro x hx
  obtain ⟨y, _, rfl⟩ := List.mem_map.mp hx
  exact mul_self_nonneg y

/-- A list of nonnegative entries with one positive member has positive sum. -/
lemma sum_pos_of_mem {l : List ℚ} {x : ℚ} (hx : x ∈ l) (hpos : 0 < x)
    (hnn : ∀ y ∈ l, 0 ≤ y) : 0 < l.sum := by
  induction l with
  | nil => cases hx
  | cons a as ih =>
    rw [List.sum_cons]
    rcases List.mem_cons.mp hx with rfl | hmem
    · have : 0 ≤ as.sum := List.sum_nonneg (fun y hy => hnn y (List.mem_cons_of_mem _ hy))
      linarith
    · have ha : 0 ≤ a := hnn a (List.mem_cons_self a as)
      have : 0 < as.sum := ih hmem (fun y hy => hnn y (List.mem_cons_of_mem _ hy))
      linarith

/-- Summing the squares of the entries of a row, indexed by position. -/
lemma sum_range_getD_sq (row : List ℚ) :
    ∑ j ∈ Finset.range row.length, (row.getD j 0) * (row.getD j 0)
      = (row.map (fun x => x * x)).sum := by
  induction row with
  | nil => simp
  | cons x xs ih =>
    rw [List.length_cons, Finset.sum_range_succ']
    simp only [List.getD_cons_succ, List.getD_cons_zero, List.map_cons, List.sum_cons, ih]
    ring

/-- Exchanging a `Finset.range` sum with a list sum. -/
lemma sum_range_list_swap (A : List (List ℚ)) (f : List ℚ → ℕ → ℚ) (m : ℕ) :
    ∑ j ∈ Finset.range m, (A.map (fun row => f row j)).sum
      = (A.map (fun row => ∑ j ∈ Finset.range m, f row j)).sum := by
  induction A with
  | nil => simp
  | cons r rs ih => simp [Finset.sum_add_distrib, ih]

/-- For a rectangular matrix, column-wise totals of squares equal the
row-wise total `sum(A**2)`. -/
lemma colSq_sum (A : List (List ℚ)) (hrect : ∀ row ∈ A, row.length = numCols A) :
    (colSq A).sum = frobSq A := by
  unfold colSq frobSq rowSq
  rw [sum_map_range, sum_range_list_swap]
  congr 1
  apply List.map_congr_left
  intro row hrow
  rw [← hrect row hrow, sum_range_getD_sq]

lemma rowSq_nonneg (A : List (List ℚ)) : ∀ y ∈ rowSq A, 0 ≤ y := by
  intro y hy
  obtain ⟨row, _, rfl⟩ := List.mem_map.mp hy
  exact sum_sq_nonneg row

lemma colSq_nonneg (A : List (List ℚ)) : ∀ y ∈ colSq A, 0 ≤ y := by
  intro y hy
  obtain ⟨j, _, rfl⟩ := List.mem_map.mp hy
  apply List.sum_nonneg
  intro x hx
  obtain ⟨row, _, rfl⟩ := List.mem_map.mp hx
  exact mul_self_nonneg _

/-- A matrix with a nonzero entry has positive total squared mass. -/
lemma frobSq_pos {A : List (List ℚ)} {row : List ℚ} {x : ℚ}
    (hrow : row ∈ A) (hx : x ∈ row) (hxne : x ≠ 0) : 0 < frobSq A := by
  have hsq : 0 < x * x := mul_self_pos.mpr hxne
  have hmem : x * x ∈ row.map (fun z => z * z) := List.mem_map.mpr ⟨x, hx, rfl⟩
  have hrowpos : 0 < (row.map (fun z => z * z)).sum := by
    apply sum_pos_of_mem hmem hsq
    intro y hy
    obtain ⟨z, _, rfl⟩ := List.mem_map.mp hy
    exact mul_self_nonneg z
  exact sum_pos_of_mem (List.mem_map_of_mem _ hrow) hrowpos (rowSq_nonneg A)

/-- A rectangular matrix with a nonzero entry has positive column totals. -/
lemma colSq_sum_pos {A : List (List ℚ)} {row : List ℚ} {x : ℚ}
    (hrect : ∀ r ∈ A, r.length = numCols A)
    (hrow : row ∈ A) (hx : x ∈ row) (hxne : x ≠ 0) :
    0 < (colSq A).sum := by
  rw [colSq_sum A hrect]
  exact frobSq_pos hrow hx hxne

end Helpers

/-- C1: for the zero matrix, `get_probabilities` silently returns `nan`-valued
probability vectors (both normalising divisions are `0/0`); no error is raised.
This exhibits the behaviour at the concrete zero matrix `[[0,0],[0,0]]`,
contradicting the claim that an invalid-input error is reported. -/
theorem get_probabilities_zero_matrix_nan :
    get_probabilities [[0, 0], [0, 0]] = ([none, none], [none, none]) := by
  simp [get_probabilities, rowSq, colSq, numCols, qdiv, List.range_succ]

/-- C7: for every rectangular matrix with some nonzero entry, the row and
column probability vectors are the squared-norm ratios
`row_prob[i] = sum(A[i,:]^2) / sum(A^2)` and
`col_prob[j] = sum(A[:,j]^2) / sum(A^2)`, and each vector sums to 1. -/
theorem get_probabilities_spec (A : List (List ℚ)) (row : List ℚ) (x : ℚ)
    (hrect : ∀ r ∈ A, r.length = numCols A)
    (hrow : row ∈ A) (hx : x ∈ row) (hxne : x ≠ 0) :
    (get_probabilities A).1 = (rowSq A).map (fun s => some (s / frobSq A)) ∧
    (get_probabilities A).2 = (colSq A).map (fun s => some (s / frobSq A)) ∧
    ((rowSq A).map (fun s => s / frobSq A)).sum = 1 ∧
    ((colSq A).map (fun s => s / frobSq A)).sum = 1 := by
  have hfrob : 0 < frobSq A := frobSq_pos hrow hx hxne
  have hrowtot : (rowSq A).sum = frobSq A := rfl
  have hcoltot : (colSq A).sum = frobSq A := colSq_sum A hrect
  refine ⟨?_, ?_, ?_, ?_⟩
  · unfold get_probabilities
    simp only [hrowtot]
    apply List.map_congr_left
    intro s _
    simp only [qdiv, if_neg (ne_of_gt hfrob)]
  · unfold get_probabilities
    simp only [hcoltot]
    apply List.map_congr_left
    intro s _
    simp only [qdiv, if_neg (ne_of_gt hfrob)]
  · rw [sum_map_div, hrowtot, div_self (ne_of_gt hfrob)]
  · rw [sum_map_div, hcoltot, div_self (ne_of_gt hfrob)]

/-- Witness for C7 at the concrete matrix `[[1,2],[3,4]]`. -/
theorem get_probabilities_spec_witness :
    (get_probabilities [[1, 2], [3, 4]]).1
        = (rowSq [[1, 2], [3, 4]]).map (fun s => some (s / frobSq [[1, 2], [3, 4]])) ∧
    (get_probabilities [[1, 2], [3, 4]]).2
        = (colSq [[1, 2], [3, 4]]).map (fun s => some (s / frobSq [[1, 2], [3, 4]])) ∧
    ((rowSq [[1, 2], [3, 4]]).map (fun s => s / frobSq [[1, 2], [3, 4]])).sum = 1 ∧
    ((colSq [[1, 2], [3, 4]]).map (fun s => s / frobSq [[1, 2], [3, 4]])).sum = 1 :=
  get_probabilities_spec [[1, 2], [3, 4]] [1, 2] 1 (by decide)
    (by decide) (by decide) (by decide)

/-- C9 counterexample: for the all-zero ground-truth matrix the divisor
`count_nonzero` is zero, so `RMSE_training(A)` at `A = [[0]]` is `nan`
(`none`), not `0`; the claim's "for every matrix A" fails at the zero
matrix. -/
theorem RMSE_training_zero_matrix_nan :
    RMSE_training [[0]] [[0]] = none := by
  have hcount : countNonzero [[0]] = 0 := by decide
  simp [RMSE_training, hcount, qdiv]

/-- C9 amended: for every ground-truth matrix with at least one nonzero
(observed) entry, `RMSE_training` is the square root of the sum of squared
errors over the observed entries divided by their count, and the RMSE of a
matrix against itself is `0`. -/
theorem RMSE_training_spec (T P : List (List ℚ)) (h : countNonzero T ≠ 0) :
    RMSE_training T P = some (Real.sqrt ((sseObs T P : ℝ) / (countNonzero T : ℝ))) ∧
    RMSE_training T T = some 0 := by
  have hcast : ((countNonzero T : ℚ) : ℝ) = (countNonzero T : ℝ) := by push_cast; ring
  have hne : (countNonzero T : ℚ) ≠ 0 := by exact_mod_cast h
  constructor
  · simp only [RMSE_training, qdiv, if_neg hne]
    simp [Rat.cast_div]
  · have hzero : sseObs T T = 0 := by
      unfold sseObs
      apply List.sum_eq_zero
      intro x hx
      obtain ⟨i, _, rfl⟩ := List.mem_map.mp hx
      apply List.sum_eq_zero
      intro y hy
      obtain ⟨j, _, rfl⟩ := List.mem_map.mp hy
      split <;> simp
    simp only [RMSE_training, hzero, qdiv, if_neg hne]
    norm_num

/-- Witness for C9's amended theorem at `T = [[1]]`, `P = [[2]]`. -/
theorem RMSE_training_spec_witness :
    RMSE_training [[1]] [[2]]
        = some (Real.sqrt ((sseObs [[1]] [[2]] : ℝ) / (countNonzero [[1]] : ℝ))) ∧
    RMSE_training [[1]] [[1]] = some 0 :=
  RMSE_training_spec [[1]] [[2]] (by decide)

/-- The `row_prob` values actually used by `get_C_R_W`; a `nan` entry
(possible only for the zero matrix) propagates as the junk default `0`. -/
def rowProbV (A : List (List ℚ)) : List ℚ :=
  ((get_probabilities A).1).map (fun o => o.getD 0)

/-- The `col_prob` values actually used by `get_C_R_W`. -/
def colProbV (A : List (List ℚ)) : List ℚ :=
  ((get_probabilities A).2).map (fun o => o.getD 0)

/-- `CUR.get_C_R_W` (src/CUR_all.py lines 186-216).  The two
`np.random.choice(..., replace=False, p=...)` draws are modelled by the
index lists `rowIdx` and `colIdx`; theorems constrain them to the contract
of a without-replacement draw (pairwise distinct, in range, length `r`).
`C = A[:, col_indices] / sqrt(r * col_prob[col_indices])` (broadcast over
rows), `R = A[row_indices, :] / sqrt(r * row_prob[row_indices])` (broadcast
over columns), and `W = A[row_indices, :][:, col_indices]` divided by the
outer product of the two scale vectors. -/
noncomputable def get_C_R_W (A : List (List ℚ)) (r : ℕ) (rowIdx colIdx : List ℕ) :
    List (List ℝ) × List (List ℝ) × List (List ℝ) :=
  (A.map (fun row => colIdx.map (fun j =>
      ((row.getD j 0 : ℚ) : ℝ) / Real.sqrt ((r : ℝ) * (((colProbV A).getD j 0 : ℚ) : ℝ)))),
   rowIdx.map (fun i => (A.getD i []).map (fun x =>
      ((x : ℚ) : ℝ) / Real.sqrt ((r : ℝ) * (((rowProbV A).getD i 0 : ℚ) : ℝ)))),
   rowIdx.map (fun i => colIdx.map (fun j =>
      (((A.getD i []).getD j 0 : ℚ) : ℝ) /
        (Real.sqrt ((r : ℝ) * (((rowProbV A).getD i 0 : ℚ) : ℝ)) *
         Real.sqrt ((r : ℝ) * (((colProbV A).getD j 0 : ℚ) : ℝ))))))

lemma rowSq_length (A : List (List ℚ)) : (rowSq A).length = A.length := by
  simp [rowSq]

lemma colSq_length (A : List (List ℚ)) : (colSq A).length = numCols A := by
  simp [colSq]

/-- Reading a mapped list at an in-range position with defaults. -/
lemma getD_map {α β : Type} (f : α → β) (l : List α) (d : β) (d0 : α) (i : ℕ)
    (h : i < l.length) : (l.map f).getD i d = f (l.getD i d0) := by
  rw [List.getD_eq_getElem _ _ (by simpa using h), List.getElem_map,
      List.getD_eq_getElem _ _ h]

/-- For a nonzero matrix the used row-probability values are the squared-norm
ratios. -/
lemma rowProbV_getD (A : List (List ℚ)) {row : List ℚ} {x : ℚ}
    (hrow : row ∈ A) (hx : x ∈ row) (hxne : x ≠ 0)
    {i : ℕ} (hi : i < A.length) :
    (rowProbV A).getD i 0 = (rowSq A).getD i 0 / frobSq A := by
  have hfrob : frobSq A ≠ 0 := ne_of_gt (frobSq_pos hrow hx hxne)
  have hne : (rowSq A).sum ≠ 0 := hfrob
  have hi1 : i < (rowSq A).length := by rw [rowSq_length]; exact hi
  have hi2 : i < ((rowSq A).map (fun x => qdiv x (rowSq A).sum)).length := by
    simpa using hi1
  show (((rowSq A).map (fun x => qdiv x (rowSq A).sum)).map
      (fun o => o.getD 0)).getD i 0 = (rowSq A).getD i 0 / frobSq A
  rw [getD_map _ _ 0 none i hi2, getD_map _ _ none 0 i hi1]
  simp only [qdiv, if_neg hne, Option.getD_some]
  rfl

/-- For a nonzero rectangular matrix the used column-probability values are
the squared-norm ratios, with denominator `sum(A**2)`. -/
lemma colProbV_getD (A : List (List ℚ)) {row : List ℚ} {x : ℚ}
    (hrect : ∀ r ∈ A, r.length = numCols A)
    (hrow : row ∈ A) (hx : x ∈ row) (hxne : x ≠ 0)
    {j : ℕ} (hj : j < numCols A) :
    (colProbV A).getD j 0 = (colSq A).getD j 0 / frobSq A := by
  have hfrob : frobSq A ≠ 0 := ne_of_gt (frobSq_pos hrow hx hxne)
  have htot : (colSq A).sum = frobSq A := colSq_sum A hrect
  have hne : (colSq A).sum ≠ 0 := by rw [htot]; exact hfrob
  have hj1 : j < (colSq A).length := by rw [colSq_length]; exact hj
  have hj2 : j < ((colSq A).map (fun x => qdiv x (colSq A).sum)).length := by
    simpa using hj1
  show (((colSq A).map (fun x => qdiv x (colSq A).sum)).map
      (fun o => o.getD 0)).getD j 0 = (colSq A).getD j 0 / frobSq A
  rw [getD_map _ _ 0 none j hj2, getD_map _ _ none 0 j hj1]
  simp only [qdiv, if_neg hne, Option.getD_some]
  rw [htot]

/-- C2: for every rectangular nonzero matrix and every valid
without-replacement draw of `r` distinct row indices and `r` distinct column
indices, `get_C_R_W` returns `C` of shape `(rows A) × r` whose column `t`
is column `colIdx t` of `A` divided by `sqrt(r * col_prob)`, `R` of shape
`r × (cols A)` whose row `s` is row `rowIdx s` of `A` divided by
`sqrt(r * row_prob)`, and `W` of shape `r × r` equal to the sampled
intersection submatrix divided elementwise by the outer product of the two
scale factors, with `row_prob`/`col_prob` the squared-norm ratios. -/
theorem get_C_R_W_spec (A : List (List ℚ)) (r : ℕ) (rowIdx colIdx : List ℕ)
    (row0 : List ℚ) (x0 : ℚ)
    (hrect : ∀ row ∈ A, row.length = numCols A)
    (hrow0 : row0 ∈ A) (hx0 : x0 ∈ row0) (hx0ne : x0 ≠ 0)
    (hrlen : rowIdx.length = r) (hclen : colIdx.length = r)
    (hrnd : rowIdx.Nodup) (hcnd : colIdx.Nodup)
    (hrin : ∀ i ∈ rowIdx, i < A.length) (hcin : ∀ j ∈ colIdx, j < numCols A) :
    (get_C_R_W A r rowIdx colIdx).1.length = A.length ∧
    (get_C_R_W A r rowIdx colIdx).2.1.length = r ∧
    (get_C_R_W A r rowIdx colIdx).2.2.length = r ∧
    (∀ i, i < A.length → ((get_C_R_W A r rowIdx colIdx).1.getD i []).length = r) ∧
    (∀ s, s < r → (((get_C_R_W A r rowIdx colIdx).2.2.getD s []).length = r)) ∧
    (∀ i t, i < A.length → t < r →
      ((get_C_R_W A r rowIdx colIdx).1.getD i []).getD t 0
        = (((A.getD i []).getD (colIdx.getD t 0) 0 : ℚ) : ℝ)
            / Real.sqrt ((r : ℝ) *
                ((((colSq A).getD (colIdx.getD t 0) 0 / frobSq A : ℚ)) : ℝ))) ∧
    (∀ s, s < r →
      ((get_C_R_W A r rowIdx colIdx).2.1.getD s [])
        = (A.getD (rowIdx.getD s 0) []).map (fun x =>
            ((x : ℚ) : ℝ) / Real.sqrt ((r : ℝ) *
              ((((rowSq A).getD (rowIdx.getD s 0) 0 / frobSq A : ℚ)) : ℝ)))) ∧
    (∀ s t, s < r → t < r →
      ((get_C_R_W A r rowIdx colIdx).2.2.getD s []).getD t 0
        = (((A.getD (rowIdx.getD s 0) []).getD (colIdx.getD t 0) 0 : ℚ) : ℝ)
            / (Real.sqrt ((r : ℝ) *
                ((((rowSq A).getD (rowIdx.getD s 0) 0 / frobSq A : ℚ)) : ℝ)) *
               Real.sqrt ((r : ℝ) *
                ((((colSq A).getD (colIdx.getD t 0) 0 / frobSq A : ℚ)) : ℝ)))) := by
  have hrowP : ∀ {i : ℕ}, i < A.length →
      (rowProbV A).getD i 0 = (rowSq A).getD i 0 / frobSq A :=
    fun hi => rowProbV_getD A hrow0 hx0 hx0ne hi
  have hcolP : ∀ {j : ℕ}, j < numCols A →
      (colProbV A).getD j 0 = (colSq A).getD j 0 / frobSq A :=
    fun hj => colProbV_getD A hrect hrow0 hx0 hx0ne hj
  refine ⟨by simp [get_C_R_W], by simp [get_C_R_W, hrlen], by simp [get_C_R_W, hrlen],
          ?_, ?_, ?_, ?_, ?_⟩
  · intro i hi
    show ((A.map (fun row => colIdx.map (fun j =>
        ((row.getD j 0 : ℚ) : ℝ) /
          Real.sqrt ((r : ℝ) * (((colProbV A).getD j 0 : ℚ) : ℝ))))).getD i []).length = r
    rw [getD_map _ _ [] [] i hi]
    simp [hclen]
  · intro s hs
    have hs1 : s < rowIdx.length := by rw [hrlen]; exact hs
    show (((rowIdx.map (fun i => colIdx.map (fun j =>
        (((A.getD i []).getD j 0 : ℚ) : ℝ) /
          (Real.sqrt ((r : ℝ) * (((rowProbV A).getD i 0 : ℚ) : ℝ)) *
           Real.sqrt ((r : ℝ) * (((colProbV A).getD j 0 : ℚ) : ℝ)))))).getD s []).length) = r
    rw [getD_map _ _ [] 0 s hs1]
    simp [hclen]
  · intro i t hi ht
    have ht1 : t < colIdx.length := by rw [hclen]; exact ht
    have hjin : colIdx.getD t 0 ∈ colIdx := by
      rw [List.getD_eq_getElem _ _ ht1]; exact List.getElem_mem ht1
    have hj := hcolP (hcin _ hjin)
    show (((A.map (fun row => colIdx.map (fun j =>
        ((row.getD j 0 : ℚ) : ℝ) /
          Real.sqrt ((r : ℝ) * (((colProbV A).getD j 0 : ℚ) : ℝ))))).getD i []).getD t 0)
      = (((A.getD i []).getD (colIdx.getD t 0) 0 : ℚ) : ℝ)
          / Real.sqrt ((r : ℝ) *
              ((((colSq A).getD (colIdx.getD t 0) 0 / frobSq A : ℚ)) : ℝ))
    rw [getD_map _ _ [] [] i hi, getD_map _ _ 0 0 t ht1, hj]
  · intro s hs
    have hs1 : s < rowIdx.length := by rw [hrlen]; exact hs
    have hiin : rowIdx.getD s 0 ∈ rowIdx := by
      rw [List.getD_eq_getElem _ _ hs1]; exact List.getElem_mem hs1
    have hi := hrowP (hrin _ hiin)
    show ((rowIdx.map (fun i => (A.getD i []).map (fun x =>
        ((x : ℚ) : ℝ) /
          Real.sqrt ((r : ℝ) * (((rowProbV A).getD i 0 : ℚ) : ℝ))))).getD s [])
      = (A.getD (rowIdx.getD s 0) []).map (fun x =>
          ((x : ℚ) : ℝ) / Real.sqrt ((r : ℝ) *
            ((((rowSq A).getD (rowIdx.getD s 0) 0 / frobSq A : ℚ)) : ℝ)))
    rw [getD_map _ _ [] 0 s hs1]
    simp only [hi]
  · intro s t hs ht
    have hs1 : s < rowIdx.length := by rw [hrlen]; exact hs
    have ht1 : t < colIdx.length := by rw [hclen]; exact ht
    have hiin : rowIdx.getD s 0 ∈ rowIdx := by
      rw [List.getD_eq_getElem _ _ hs1]; exact List.getElem_mem hs1
    have hjin : colIdx.getD t 0 ∈ colIdx := by
      rw [List.getD_eq_getElem _ _ ht1]; exact List.getElem_mem ht1
    have hi := hrowP (hrin _ hiin)
    have hj := hcolP (hcin _ hjin)
    show (((rowIdx.map (fun i => colIdx.map (fun j =>
        (((A.getD i []).getD j 0 : ℚ) : ℝ) /
          (Real.sqrt ((r : ℝ) * (((rowProbV A).getD i 0 : ℚ) : ℝ)) *
           Real.sqrt ((r : ℝ) * (((colProbV A).getD j 0 : ℚ) : ℝ)))))).getD s []).getD t 0)
      = (((A.getD (rowIdx.getD s 0) []).getD (colIdx.getD t 0) 0 : ℚ) : ℝ)
          / (Real.sqrt ((r : ℝ) *
              ((((rowSq A).getD (rowIdx.getD s 0) 0 / frobSq A : ℚ)) : ℝ)) *
             Real.sqrt ((r : ℝ) *
              ((((colSq A).getD (colIdx.getD t 0) 0 / frobSq A : ℚ)) : ℝ)))
    rw [getD_map _ _ [] 0 s hs1, getD_map _ _ 0 0 t ht1, hi, hj]

/-- Witness for C2 at `A = [[1,0],[0,1]]`, `r = 1`, drawn rows `[0]`,
drawn columns `[1]`. -/
theorem get_C_R_W_spec_witness :
    (get_C_R_W [[1, 0], [0, 1]] 1 [0] [1]).1.length = 2 ∧
    (get_C_R_W [[1, 0], [0, 1]] 1 [0] [1]).2.1.length = 1 ∧
    (get_C_R_W [[1, 0], [0, 1]] 1 [0] [1]).2.2.length = 1 ∧
    (∀ i, i < 2 → (((get_C_R_W [[1, 0], [0, 1]] 1 [0] [1]).1.getD i []).length = 1)) ∧
    (∀ s, s < 1 → (((get_C_R_W [[1, 0], [0, 1]] 1 [0] [1]).2.2.getD s []).length = 1)) ∧
    (∀ i t, i < 2 → t < 1 →
      ((get_C_R_W [[1, 0], [0, 1]] 1 [0] [1]).1.getD i []).getD t 0
        = ((([[1, 0], [0, 1]].getD i []).getD (([1] : List ℕ).getD t 0) 0 : ℚ) : ℝ)
            / Real.sqrt ((1 : ℕ) *
                ((((colSq [[1, 0], [0, 1]]).getD (([1] : List ℕ).getD t 0) 0
                    / frobSq [[1, 0], [0, 1]] : ℚ)) : ℝ))) ∧
    (∀ s, s < 1 →
      ((get_C_R_W [[1, 0], [0, 1]] 1 [0] [1]).2.1.getD s [])
        = ([[1, 0], [0, 1]].getD (([0] : List ℕ).getD s 0) []).map (fun x =>
            ((x : ℚ) : ℝ) / Real.sqrt ((1 : ℕ) *
              ((((rowSq [[1, 0], [0, 1]]).getD (([0] : List ℕ).getD s 0) 0
                  / frobSq [[1, 0], [0, 1]] : ℚ)) : ℝ)))) ∧
    (∀ s t, s < 1 → t < 1 →
      ((get_C_R_W [[1, 0], [0, 1]] 1 [0] [1]).2.2.getD s []).getD t 0
        = ((([[1, 0], [0, 1]].getD (([0] : List ℕ).getD s 0) []).getD
              (([1] : List ℕ).getD t 0) 0 : ℚ) : ℝ)
            / (Real.sqrt ((1 : ℕ) *
                ((((rowSq [[1, 0], [0, 1]]).getD (([0] : List ℕ).getD s 0) 0
                    / frobSq [[1, 0], [0, 1]] : ℚ)) : ℝ)) *
               Real.sqrt ((1 : ℕ) *
                ((((colSq [[1, 0], [0, 1]]).getD (([1] : List ℕ).getD t 0) 0
                    / frobSq [[1, 0], [0, 1]] : ℚ)) : ℝ)))) :=
  get_C_R_W_spec [[1, 0], [0, 1]] 1 [0] [1] [1, 0] 1 (by decide) (by decide)
    (by decide) (by decide) (by decide) (by decide) (by decide) (by decide)
    (by decide) (by decide)

/-- Model of ascending `np.argsort` on a vector: the index list sorted by
value.  numpy's default quicksort is unstable, so with tied values its tie
order is unspecified; theorems depending on tie order carry hypotheses under
which every sorting order agrees. -/
def argsortAsc {α : Type} [LinearOrder α] (d : α) (xs : List α) : List ℕ :=
  (List.range xs.length).insertionSort (fun a b => xs.getD a d ≤ xs.getD b d)

/-- `np.argsort(xs)[::-1]`: descending argsort. -/
def argsortDesc {α : Type} [LinearOrder α] (d : α) (xs : List α) : List ℕ :=
  (argsortAsc d xs).reverse

lemma argsortAsc_perm {α : Type} [LinearOrder α] (d : α) (xs : List α) :
    (argsortAsc d xs).Perm (List.range xs.length) :=
  List.perm_insertionSort _ _

lemma argsortAsc_sorted {α : Type} [LinearOrder α] (d : α) (xs : List α) :
    List.Sorted (fun a b => xs.getD a d ≤ xs.getD b d) (argsortAsc d xs) := by
  haveI h1 : IsTotal ℕ (fun a b => xs.getD a d ≤ xs.getD b d) := ⟨fun a b => le_total _ _⟩
  haveI h2 : IsTrans ℕ (fun a b => xs.getD a d ≤ xs.getD b d) :=
    ⟨fun a b c hab hbc => le_trans hab hbc⟩
  exact List.sorted_insertionSort _ _

lemma argsortAsc_length {α : Type} [LinearOrder α] (d : α) (xs : List α) :
    (argsortAsc d xs).length = xs.length := by
  unfold argsortAsc
  rw [List.length_insertionSort, List.length_range]

/-- Inserting an element that compares above every member of a list appends
it at the end. -/
lemma orderedInsert_append {α : Type} (r : α → α → Prop) [DecidableRel r] (a : α) :
    ∀ l : List α, (∀ b ∈ l, ¬ r a b) → List.orderedInsert r a l = l ++ [a]
  | [], _ => rfl
  | b :: bs, h => by
    rw [List.orderedInsert, if_neg (h b (List.mem_cons_self b bs)),
        orderedInsert_append r a bs (fun c hc => h c (List.mem_cons_of_mem _ hc))]
    rfl

/-- Sorting a contiguous index block of a strictly descending vector in
ascending value order reverses it. -/
lemma insertionSort_range'_strictDesc {α : Type} [LinearOrder α] (d : α) (xs : List α)
    (hdesc : ∀ b, b < xs.length → ∀ a, a < b → xs.getD b d < xs.getD a d) :
    ∀ k m, m + k ≤ xs.length →
      (List.range' m k).insertionSort (fun a b => xs.getD a d ≤ xs.getD b d)
        = (List.range' m k).reverse := by
  intro k
  induction k with
  | zero => intro m _; rfl
  | succ k ih =>
    intro m hm
    rw [List.range'_succ, List.reverse_cons]
    show List.orderedInsert _ m
        ((List.range' (m + 1) k).insertionSort (fun a b => xs.getD a d ≤ xs.getD b d))
      = (List.range' (m + 1) k).reverse ++ [m]
    rw [ih (m + 1) (by omega)]
    apply orderedInsert_append
    intro b hb
    rw [List.mem_reverse] at hb
    obtain ⟨i, hik, rfl⟩ := List.mem_range'.mp hb
    have hblt : m + 1 * i + 1 ≤ xs.length := by omega
    have := hdesc (m + 1 + 1 * i) (by omega) m (by omega)
    exact not_le.mpr this

/-- On a strictly descending vector, ascending argsort is the reversed index
range. -/
lemma argsortAsc_strictDesc {α : Type} [LinearOrder α] (d : α) (xs : List α)
    (hdesc : ∀ b, b < xs.length → ∀ a, a < b → xs.getD b d < xs.getD a d) :
    argsortAsc d xs = (List.range xs.length).reverse := by
  unfold argsortAsc
  rw [List.range_eq_range']
  exact insertionSort_range'_strictDesc d xs hdesc xs.length 0 (by omega)

/-- On a strictly descending vector, descending argsort is the identity
index range. -/
lemma argsortDesc_strictDesc {α : Type} [LinearOrder α] (d : α) (xs : List α)
    (hdesc : ∀ b, b < xs.length → ∀ a, a < b → xs.getD b d < xs.getD a d) :
    argsortDesc d xs = List.range xs.length := by
  unfold argsortDesc
  rw [argsortAsc_strictDesc d xs hdesc, List.reverse_reverse]

/-- Reading the first `k` positions of a vector through `List.range` is
`List.take`. -/
lemma map_getD_range_eq_take {α : Type} (xs : List α) (d : α) (k : ℕ)
    (h : k ≤ xs.length) :
    (List.range k).map (fun i => xs.getD i d) = xs.take k := by
  apply List.ext_getElem
  · rw [List.length_map, List.length_range, List.length_take]
    omega
  · intro n h1 h2
    rw [List.getElem_map, List.getElem_range, List.getElem_take,
        List.getD_eq_getElem xs d (by
          rw [List.length_map, List.length_range] at h1
          omega)]

/-- `total_sum = (middle_diagonal**2).sum()` in `SVD.decompose90`
(src/CUR_all.py line 141). -/
def sigTotal (sigma : List ℚ) : ℚ := (sigma.map (fun x => x * x)).sum

/-- The selection loop of `SVD.decompose90` (src/CUR_all.py lines 142-148):
walk the sorted indices, accumulate squared singular values, and stop (with
the current count) as soon as the accumulated fraction of `total` reaches
0.9.  The division is float division: when `total = 0` the fraction is `nan`
and the comparison is false, exactly as `0 / 0 = 0 < 9/10` here, so the loop
runs to the end in both semantics. -/
def takenLoop (sigma : List ℚ) (total : ℚ) : List ℕ → ℚ → ℕ → ℕ
  | [], _, taken => taken
  | i :: rest, acc, taken =>
    if (acc + sigma.getD i 0 * sigma.getD i 0) / total ≥ 9 / 10 then taken + 1
    else takenLoop sigma total rest (acc + sigma.getD i 0 * sigma.getD i 0) (taken + 1)

/-- Number of components retained by `SVD.decompose90`. -/
def retainedCount (sigma : List ℚ) : ℕ :=
  takenLoop sigma (sigTotal sigma) (argsortDesc 0 sigma) 0 0

/-- `SVD.decompose90` (src/CUR_all.py lines 134-154), parametrised by the
full decomposition `(U, sigma, V_T)` returned by the external
`np.linalg.svd` routine: sort the singular values descending, count the
smallest prefix reaching 90% of the squared mass, and slice `U`'s columns,
`sigma`, and `V_T`'s rows to the selected indices. -/
def SVD_decompose90 (U : List (List ℚ)) (sigma : List ℚ) (VT : List (List ℚ)) :
    List (List ℚ) × List ℚ × List (List ℚ) :=
  let idxs := (argsortDesc 0 sigma).take (retainedCount sigma)
  (U.map (fun row => idxs.map (fun j => row.getD j 0)),
   idxs.map (fun j => sigma.getD j 0),
   idxs.map (fun i => VT.getD i []))

/-- Cumulative squared mass of the first `k` singular values. -/
def energyCum (sigma : List ℚ) (k : ℕ) : ℚ :=
  ∑ i ∈ Finset.range k, sigma.getD i 0 * sigma.getD i 0

/-- The spec's energy ratio of a length-`k` prefix: cumulative sum of squares
of the first `k` singular values divided by the total sum of squares. -/
def energyRatio (sigma : List ℚ) (k : ℕ) : ℚ :=
  ((sigma.take k).map (fun x => x * x)).sum / sigTotal sigma

lemma energyCum_zero (sigma : List ℚ) : energyCum sigma 0 = 0 := by
  simp [energyCum]

lemma energyCum_succ (sigma : List ℚ) (p : ℕ) :
    energyCum sigma (p + 1) = energyCum sigma p + sigma.getD p 0 * sigma.getD p 0 :=
  Finset.sum_range_succ _ _

lemma energyCum_length (sigma : List ℚ) : energyCum sigma sigma.length = sigTotal sigma :=
  sum_range_getD_sq sigma

lemma energyCum_eq_take (sigma : List ℚ) (k : ℕ) (h : k ≤ sigma.length) :
    energyCum sigma k = ((sigma.take k).map (fun x => x * x)).sum := by
  rw [← sum_range_getD_sq (sigma.take k), List.length_take, min_eq_left h]
  apply Finset.sum_congr rfl
  intro j hj
  have hjk : j < k := Finset.mem_range.mp hj
  have h1 : j < (sigma.take k).length := by
    rw [List.length_take]; omega
  rw [List.getD_eq_getElem _ _ h1, List.getElem_take,
      List.getD_eq_getElem sigma 0 (by omega)]

/-- Full behaviour of the selection loop started at position `p`: it runs
while the cumulative fraction stays below 0.9 and returns the first count
whose prefix reaches 0.9, or the full length when no prefix does. -/
lemma takenLoop_spec (sigma : List ℚ) :
    ∀ m p, p + m = sigma.length →
      (∀ k, k ≤ p → ¬(energyCum sigma k / sigTotal sigma ≥ 9 / 10)) →
      p ≤ takenLoop sigma (sigTotal sigma) (List.range' p m) (energyCum sigma p) p ∧
      takenLoop sigma (sigTotal sigma) (List.range' p m) (energyCum sigma p) p
          ≤ sigma.length ∧
      (∀ k, k < takenLoop sigma (sigTotal sigma) (List.range' p m) (energyCum sigma p) p →
          ¬(energyCum sigma k / sigTotal sigma ≥ 9 / 10)) ∧
      (energyCum sigma
            (takenLoop sigma (sigTotal sigma) (List.range' p m) (energyCum sigma p) p)
          / sigTotal sigma ≥ 9 / 10
        ∨ takenLoop sigma (sigTotal sigma) (List.range' p m) (energyCum sigma p) p
            = sigma.length) ∧
      (m ≠ 0 →
        p < takenLoop sigma (sigTotal sigma) (List.range' p m) (energyCum sigma p) p) := by
  intro m
  induction m with
  | zero =>
    intro p hp hbelow
    have hpl : p = sigma.length := by omega
    constructor
    · exact le_refl _
    · constructor
      · show p ≤ sigma.length; omega
      · refine ⟨fun k hk => hbelow k (le_of_lt hk), Or.inr hpl, fun hm => absurd rfl hm⟩
  | succ m ih =>
    intro p hp hbelow
    rw [List.range'_succ]
    have hstep : takenLoop sigma (sigTotal sigma) (p :: List.range' (p + 1) m)
        (energyCum sigma p) p
        = if energyCum sigma (p + 1) / sigTotal sigma ≥ 9 / 10 then p + 1
          else takenLoop sigma (sigTotal sigma) (List.range' (p + 1) m)
            (energyCum sigma (p + 1)) (p + 1) := by
      rw [energyCum_succ sigma p]
      simp only [takenLoop]
    rw [hstep]
    by_cases hcond : energyCum sigma (p + 1) / sigTotal sigma ≥ 9 / 10
    · rw [if_pos hcond]
      refine ⟨by omega, by omega, ?_, Or.inl hcond, fun _ => by omega⟩
      intro k hk
      exact hbelow k (by omega)
    · rw [if_neg hcond]
      have hbelow2 : ∀ k, k ≤ p + 1 → ¬(energyCum sigma k / sigTotal sigma ≥ 9 / 10) := by
        intro k hk
        rcases Nat.lt_or_ge k (p + 1) with h | h
        · exact hbelow k (by omega)
        · have : k = p + 1 := by omega
          rw [this]; exact hcond
      obtain ⟨h1, h2, h3, h4, h5⟩ := ih (p + 1) (by omega) hbelow2
      exact ⟨by omega, h2, h3, h4, fun _ => by omega⟩

/-- The retained component count of `SVD.decompose90`, for a nonempty
strictly descending singular value list with positive total squared mass:
at least one component, at most all of them, its prefix reaches the 0.9
energy ratio, and no shorter prefix does. -/
lemma retainedCount_spec (sigma : List ℚ) (hne : sigma ≠ [])
    (hdesc : ∀ b, b < sigma.length → ∀ a, a < b → sigma.getD b 0 < sigma.getD a 0)
    (hpos : 0 < sigTotal sigma) :
    1 ≤ retainedCount sigma ∧ retainedCount sigma ≤ sigma.length ∧
    energyRatio sigma (retainedCount sigma) ≥ 9 / 10 ∧
    ∀ k, k < retainedCount sigma → ¬(energyRatio sigma k ≥ 9 / 10) := by
  have hlen : sigma.length ≠ 0 := by
    intro h
    exact hne (List.length_eq_zero.mp h)
  have hrc : retainedCount sigma
      = takenLoop sigma (sigTotal sigma) (List.range' 0 sigma.length)
          (energyCum sigma 0) 0 := by
    unfold retainedCount
    rw [argsortDesc_strictDesc 0 sigma hdesc, List.range_eq_range', energyCum_zero]
  have hbelow0 : ∀ k, k ≤ 0 → ¬(energyCum sigma k / sigTotal sigma ≥ 9 / 10) := by
    intro k hk
    have : k = 0 := by omega
    rw [this, energyCum_zero, zero_div]
    norm_num
  obtain ⟨h1, h2, h3, h4⟩ := takenLoop_spec sigma sigma.length 0 (by omega) hbelow0
  obtain ⟨h4, h5⟩ := h4
  rw [← hrc] at h1 h2 h3 h4 h5
  have hone : 1 ≤ retainedCount sigma := h5 hlen
  refine ⟨hone, h2, ?_, ?_⟩
  · unfold energyRatio
    rw [← energyCum_eq_take sigma _ h2]
    rcases h4 with h | h
    · exact h
    · rw [h, energyCum_length, div_self (ne_of_gt hpos)]
      norm_num
  · intro k hk
    have hkn : k ≤ sigma.length := by omega
    unfold energyRatio
    rw [← energyCum_eq_take sigma k hkn]
    exact h3 k hk

/-- C3 amended theorem: for every full SVD triple with nonempty, strictly
descending singular values of positive total squared mass (i.e. a nonzero
matrix) and factor shapes at least as large as `sigma` (as `np.linalg.svd`
with `full_matrices=False` produces), `SVD.decompose90` returns exactly the
shortest prefix of the decomposition whose energy ratio reaches 0.9:
`U` column-sliced, `sigma` truncated, `V_T` row-sliced to that prefix, which
is never empty. -/
theorem SVD_decompose90_spec (U : List (List ℚ)) (sigma : List ℚ) (VT : List (List ℚ))
    (hne : sigma ≠ [])
    (hdesc : ∀ b, b < sigma.length → ∀ a, a < b → sigma.getD b 0 < sigma.getD a 0)
    (hpos : 0 < sigTotal sigma)
    (hU : ∀ row ∈ U, sigma.length ≤ row.length)
    (hVT : sigma.length ≤ VT.length) :
    SVD_decompose90 U sigma VT
      = (U.map (fun row => row.take (retainedCount sigma)),
         sigma.take (retainedCount sigma),
         VT.take (retainedCount sigma)) ∧
    1 ≤ retainedCount sigma ∧ retainedCount sigma ≤ sigma.length ∧
    energyRatio sigma (retainedCount sigma) ≥ 9 / 10 ∧
    (∀ k, k < retainedCount sigma → ¬(energyRatio sigma k ≥ 9 / 10)) := by
  obtain ⟨h1, h2, h3, h4⟩ := retainedCount_spec sigma hne hdesc hpos
  have hidx : (argsortDesc 0 sigma).take (retainedCount sigma)
      = List.range (retainedCount sigma) := by
    rw [argsortDesc_strictDesc 0 sigma hdesc, List.take_range, min_eq_left h2]
  refine ⟨?_, h1, h2, h3, h4⟩
  unfold SVD_decompose90
  rw [hidx]
  refine congrArg₂ _ ?_ (congrArg₂ _ ?_ ?_)
  · apply List.map_congr_left
    intro row hrow
    exact map_getD_range_eq_take row 0 _ (le_trans h2 (hU row hrow))
  · exact map_getD_range_eq_take sigma 0 _ h2
  · exact map_getD_range_eq_take VT [] _ (le_trans h2 hVT)

/-- Evaluation of `SVD.decompose90` on the SVD `([[1]], [0], [[1]])` of the
1×1 zero matrix: the total squared mass is `0`, the loop's fraction is
`0/0` (`nan` in numpy, junk `0` here — the comparison with 0.9 is false in
both), so the loop exhausts the list and every component is retained. -/
lemma SVD_decompose90_zero_eval :
    SVD_decompose90 [[1]] [0] [[1]] = ([[1]], [0], [[1]]) := by
  have h1 : argsortDesc (0 : ℚ) [0] = [0] := by
    simp [argsortDesc, argsortAsc, List.insertionSort, List.orderedInsert]
  have h2 : sigTotal [0] = 0 := by norm_num [sigTotal]
  have h3 : retainedCount [0] = 1 := by
    unfold retainedCount
    rw [h1, h2]
    norm_num [takenLoop]
  unfold SVD_decompose90
  rw [h1, h3]
  norm_num

/-- C3 counterexample: at the 1×1 zero matrix (full SVD `([[1]], [0], [[1]])`)
the code retains the single zero singular value, but no prefix — in
particular not the retained one — has energy ratio ≥ 0.90 (the ratio is
`0/0`, `nan` in numpy), so the output is not "the smallest prefix whose
ratio reaches the threshold" demanded by the claim for every matrix. -/
theorem SVD_decompose90_zero_counterexample :
    (SVD_decompose90 [[1]] [0] [[1]]).2.1 = [0] ∧
    ¬(energyRatio [0] 1 ≥ 9 / 10) ∧ ¬(energyRatio [0] 0 ≥ 9 / 10) := by
  refine ⟨by rw [SVD_decompose90_zero_eval], ?_, ?_⟩ <;>
    norm_num [energyRatio, sigTotal]

/-- Witness for C3's amended theorem at `U = VT = [[1,0],[0,1]]`,
`sigma = [3,1]` (energy ratio of the first component is exactly 0.9). -/
theorem SVD_decompose90_spec_witness :
    SVD_decompose90 [[1, 0], [0, 1]] [3, 1] [[1, 0], [0, 1]]
      = ([[1, 0], [0, 1]].map (fun row => row.take (retainedCount [3, 1])),
         ([3, 1] : List ℚ).take (retainedCount [3, 1]),
         ([[1, 0], [0, 1]] : List (List ℚ)).take (retainedCount [3, 1])) ∧
    1 ≤ retainedCount [3, 1] ∧ retainedCount [3, 1] ≤ ([3, 1] : List ℚ).length ∧
    energyRatio [3, 1] (retainedCount [3, 1]) ≥ 9 / 10 ∧
    (∀ k, k < retainedCount [3, 1] → ¬(energyRatio [3, 1] k ≥ 9 / 10)) :=
  SVD_decompose90_spec [[1, 0], [0, 1]] [3, 1] [[1, 0], [0, 1]]
    (by decide) (by decide) (by norm_num [sigTotal]) (by decide) (by decide)

/-- `np.reciprocal` on a float: the reciprocal of `0.0` is the non-finite
`inf`, produced silently (modelled by `none`). -/
def reciprocalNp (x : ℚ) : Option ℚ := if x = 0 then none else some x⁻¹

/-- The `sigma_r = np.reciprocal(sigma)` step of `CUR.decompose90`
(src/CUR_all.py line 243), applied to the singular values retained by
`SVD(W).decompose90`. -/
def CUR_decompose90_sigmaRecip (U : List (List ℚ)) (sigma : List ℚ)
    (VT : List (List ℚ)) : List (Option ℚ) :=
  ((SVD_decompose90 U sigma VT).2.1).map reciprocalNp

/-- C4: `CUR.decompose90` neither excludes zero singular values nor fails.
With `A = [[0,1],[1,0]]`, `r = 1` and the draw rows `[0]`, columns `[0]`
(a valid draw: both probability vectors are `[1/2, 1/2]`), the sampled
scaled intersection is `W = [[0]]`, whose SVD is `([[1]], [0], [[1]])`;
the energy truncation retains the zero singular value and
`np.reciprocal` is applied to it, silently yielding a non-finite entry
(`inf`, modelled `none`) in the core computation. -/
theorem CUR_decompose90_zero_sigma_reciprocal :
    (get_C_R_W [[0, 1], [1, 0]] 1 [0] [0]).2.2 = [[0]] ∧
    (SVD_decompose90 [[1]] [0] [[1]]).2.1 = [0] ∧
    CUR_decompose90_sigmaRecip [[1]] [0] [[1]] = [none] := by
  refine ⟨?_, by rw [SVD_decompose90_zero_eval], ?_⟩
  · simp [get_C_R_W]
  · unfold CUR_decompose90_sigmaRecip
    rw [SVD_decompose90_zero_eval]
    simp [reciprocalNp]

/-- Sum of the observed (nonzero) entries of a matrix. -/
def obsSum (M : List (List ℚ)) : ℚ :=
  (M.map (fun row => (row.filter (fun x => x ≠ 0)).sum)).sum

/-- `CollaborativeWithBaseline.find_global_mean` (src/main.py line 72):
`np.mean(matrix, where=bool_mat)`, the mean over observed entries.  A matrix
with no observed entry would give `nan`; all theorems below use matrices
with observed entries. -/
def global_mean (M : List (List ℚ)) : ℚ := obsSum M / (countNonzero M : ℚ)

/-- Number of observed entries in column `j`. -/
def colObsCount (M : List (List ℚ)) (j : ℕ) : ℕ :=
  (M.map (fun row => if row.getD j 0 ≠ 0 then 1 else 0)).sum

/-- Sum of the observed entries in column `j`. -/
def colObsSum (M : List (List ℚ)) (j : ℕ) : ℚ :=
  (M.map (fun row => if row.getD j 0 ≠ 0 then row.getD j 0 else 0)).sum

/-- `CollaborativeWithBaseline.find_movie_deviation` (src/main.py lines
79-82): `np.nanmean(matrix, where=bool_mat, axis=0) - global_mean` followed
by `np.nan_to_num` in place.  A column with no observed entry has `nanmean`
equal to `nan`; `nan - global_mean = nan`, which `nan_to_num` turns into
`0`. -/
def movie_deviation (M : List (List ℚ)) : List ℚ :=
  (List.range (numCols M)).map (fun j =>
    if colObsCount M j = 0 then 0
    else colObsSum M j / (colObsCount M j : ℚ) - global_mean M)

/-- `np.subtract(X, b, where=mask)` with the default `out=None` (src/main.py
lines 64-67): numpy allocates a fresh, uninitialized output array and
computes `X - b` only where the mask is true; positions where the mask is
false REMAIN UNINITIALIZED (per the numpy ufunc documentation), so their
values are arbitrary memory contents, modelled by the parameter `g`.
The mask is the `bool_mat` of the original matrix (entry nonzero), and `b`
is broadcast along rows. -/
def subtractWhere (X : List (List ℚ)) (mask : List (List ℚ)) (b : ℕ → ℚ)
    (g : ℕ → ℕ → ℚ) : List (List ℚ) :=
  (List.range X.length).map (fun i => (List.range (numCols X)).map (fun j =>
    if (mask.getD i []).getD j 0 ≠ 0 then (X.getD i []).getD j 0 - b j else g i j))

/-- The residual matrix built by `CollaborativeWithBaseline.__init__`
(src/main.py lines 60-67): subtract the global mean where observed, then
subtract the per-movie deviation where observed; both subtractions leave
the unobserved positions of their freshly allocated outputs uninitialized
(`g1`, `g2`). -/
def residualMatrix (M : List (List ℚ)) (g1 g2 : ℕ → ℕ → ℚ) : List (List ℚ) :=
  subtractWhere (subtractWhere M M (fun _ => global_mean M) g1) M
    (fun j => (movie_deviation M).getD j 0) g2

/-- C6: at the concrete matrix `[[4,0],[2,0]]` (global mean 3, movie
deviations `[0, 0]` — column 1 has no observed entry, so its `nan`
deviation is zeroed), the observed entries of the residual are
`orig - mean - deviation` as claimed, but each unobserved entry equals
whatever the uninitialized output memory `g2` held there — for every
`g1`, `g2` — rather than staying exactly zero as the claim states. -/
theorem CollaborativeWithBaseline_residual (g1 g2 : ℕ → ℕ → ℚ) :
    residualMatrix [[4, 0], [2, 0]] g1 g2 = [[1, g2 0 1], [-1, g2 1 1]] := by
  have hmean : global_mean [[4, 0], [2, 0]] = 3 := by
    norm_num [global_mean, obsSum, countNonzero]
  have hdev : movie_deviation [[4, 0], [2, 0]] = [0, 0] := by
    norm_num [movie_deviation, colObsCount, colObsSum, numCols, List.range_succ, hmean]
  have hfirst : subtractWhere [[4, 0], [2, 0]] [[4, 0], [2, 0]]
      (fun _ => global_mean [[4, 0], [2, 0]]) g1 = [[1, g1 0 1], [-1, g1 1 1]] := by
    norm_num [subtractWhere, numCols, List.range_succ, hmean]
  unfold residualMatrix
  rw [hfirst, hdev]
  norm_num [subtractWhere, numCols, List.range_succ]

/-- The values of a vector read along its ascending argsort are the
ascending sort of the vector. -/
lemma argsortAsc_map_getD {α : Type} [LinearOrder α] (d : α) (xs : List α) :
    (argsortAsc d xs).map (fun i => xs.getD i d) = xs.insertionSort (fun a b => a ≤ b) := by
  apply List.eq_of_perm_of_sorted (r := fun a b : α => a ≤ b)
  · have p1 : List.Perm ((argsortAsc d xs).map (fun i => xs.getD i d))
        ((List.range xs.length).map (fun i => xs.getD i d)) :=
      (argsortAsc_perm d xs).map _
    have p2 : (List.range xs.length).map (fun i => xs.getD i d) = xs := by
      rw [map_getD_range_eq_take xs d xs.length (le_refl _), List.take_length]
    have p3 : List.Perm xs (xs.insertionSort (fun a b => a ≤ b)) :=
      (List.perm_insertionSort _ xs).symm
    rw [p2] at p1
    exact p1.trans p3
  · exact List.pairwise_map.mpr (argsortAsc_sorted d xs)
  · haveI h1 : IsTotal α (fun a b : α => a ≤ b) := ⟨fun a b => le_total a b⟩
    haveI h2 : IsTrans α (fun a b : α => a ≤ b) := ⟨fun a b c hab hbc => le_trans hab hbc⟩
    exact List.sorted_insertionSort _ _

/-- Descending sort of a vector of true ratings (ascending sort reversed);
used to phrase "the k-th largest rating" independently of tie order. -/
def sortDesc (xs : List ℚ) : List ℚ := (xs.insertionSort (fun a b => a ≤ b)).reverse

lemma argsortDesc_map_getD (xs : List ℚ) :
    (argsortDesc 0 xs).map (fun i => xs.getD i 0) = sortDesc xs := by
  unfold argsortDesc sortDesc
  rw [List.map_reverse, argsortAsc_map_getD]

lemma argsortDesc_length (xs : List ℚ) : (argsortDesc 0 xs).length = xs.length := by
  unfold argsortDesc
  rw [List.length_reverse, argsortAsc_length]

lemma sortDesc_length (xs : List ℚ) : (sortDesc xs).length = xs.length := by
  unfold sortDesc
  rw [List.length_reverse, List.length_insertionSort]

/-- The descending sort is pairwise `≥`. -/
lemma sortDesc_pairwise (xs : List ℚ) :
    List.Pairwise (fun a b : ℚ => b ≤ a) (sortDesc xs) := by
  unfold sortDesc
  rw [List.pairwise_reverse]
  haveI h1 : IsTotal ℚ (fun a b : ℚ => a ≤ b) := ⟨fun a b => le_total a b⟩
  haveI h2 : IsTrans ℚ (fun a b : ℚ => a ≤ b) := ⟨fun a b c hab hbc => le_trans hab hbc⟩
  exact List.sorted_insertionSort _ _

/-- `Dataset.precision_at_top_k` (src/CUR_all.py lines 100-121): for each
user, sort the TRUE ratings row descending by `argsort()[::-1]`, look at the
first `k` positions, count those whose PREDICTED rating is relevant
(strictly greater than 3), divide by `k`; average the per-user fractions
over all users. -/
def precision_at_top_k (T P : List (List ℚ)) (k : ℕ) : ℚ :=
  ((List.range T.length).map (fun r =>
    (((List.range k).filter (fun i =>
        (P.getD r []).getD ((argsortDesc 0 (T.getD r [])).getD i 0) 0 > 3)).length : ℚ)
      / (k : ℚ))).sum / (T.length : ℚ)

/-- C8: `precision_at_top_k` averages, over users, the fraction of the `k`
highest-true-rated items whose prediction exceeds 3: there is a
per-user permutation of the item indices along which the true ratings are
descending, such that the result is the average over users of
(number of the first `k` indices with prediction > 3) / k.  And when the
prediction equals the ground truth and every user's 2nd-largest true rating
exceeds 3 (so both top-2 true entries are relevant), precision at `k = 2`
is exactly 1. -/
theorem precision_at_top_k_spec (T P : List (List ℚ)) (k m : ℕ)
    (hrect : ∀ row ∈ T, row.length = m)
    (hrows : 1 ≤ T.length) (hk : 1 ≤ k) (hkm : k ≤ m) :
    (∃ perm : ℕ → List ℕ,
      (∀ r, r < T.length →
        (perm r).Perm (List.range m) ∧
        List.Pairwise (fun a b => (T.getD r []).getD b 0 ≤ (T.getD r []).getD a 0) (perm r)) ∧
      precision_at_top_k T P k
        = ((List.range T.length).map (fun r =>
            (((List.range k).filter (fun i =>
                (P.getD r []).getD ((perm r).getD i 0) 0 > 3)).length : ℚ)
              / (k : ℚ))).sum / (T.length : ℚ)) ∧
    (k = 2 → P = T →
      (∀ r, r < T.length → 3 < (sortDesc (T.getD r [])).getD 1 0) →
      precision_at_top_k T T 2 = 1) := by
  have hrowlen : ∀ r, r < T.length → (T.getD r []).length = m := by
    intro r hr
    apply hrect
    rw [List.getD_eq_getElem _ _ hr]
    exact List.getElem_mem hr
  constructor
  · refine ⟨fun r => argsortDesc 0 (T.getD r []), fun r hr => ⟨?_, ?_⟩, rfl⟩
    · have q1 : List.Perm (argsortDesc 0 (T.getD r [])) (argsortAsc 0 (T.getD r [])) :=
        List.reverse_perm _
      have q2 : List.Perm (argsortAsc 0 (T.getD r []))
          (List.range (T.getD r []).length) := argsortAsc_perm _ _
      rw [hrowlen r hr] at q2
      exact q1.trans q2
    · show List.Pairwise (fun a b => (T.getD r []).getD b 0 ≤ (T.getD r []).getD a 0)
        (argsortDesc 0 (T.getD r []))
      unfold argsortDesc
      rw [List.pairwise_reverse]
      exact argsortAsc_sorted 0 (T.getD r [])
  · intro hk2 hPT htop
    subst hk2
    have hm2 : 2 ≤ m := hkm
    unfold precision_at_top_k
    have hrow1 : ∀ r, r < T.length →
        (((List.range 2).filter (fun i =>
            (T.getD r []).getD ((argsortDesc 0 (T.getD r [])).getD i 0) 0 > 3)).length : ℚ)
          / ((2 : ℕ) : ℚ) = 1 := by
      intro r hr
      set row := T.getD r [] with hrow
      have hlen : row.length = m := hrowlen r hr
      have hval : ∀ i, i < 2 →
          row.getD ((argsortDesc 0 row).getD i 0) 0 = (sortDesc row).getD i 0 := by
        intro i hi
        have hi2 : i < (argsortDesc 0 row).length := by
          rw [argsortDesc_length, hlen]; omega
        rw [← argsortDesc_map_getD row, getD_map _ _ 0 0 i hi2]
      have hv1 : 3 < (sortDesc row).getD 1 0 := htop r hr
      have hv0 : (sortDesc row).getD 1 0 ≤ (sortDesc row).getD 0 0 := by
        have hlen2 : 1 < (sortDesc row).length := by
          rw [sortDesc_length, hlen]; omega
        have hp := List.pairwise_iff_get.mp (sortDesc_pairwise row)
          ⟨0, by omega⟩ ⟨1, hlen2⟩ (by simp)
        rw [List.getD_eq_getElem _ _ hlen2, List.getD_eq_getElem _ _ (by omega)]
        exact hp
      have hfilter : (List.range 2).filter (fun i =>
          row.getD ((argsortDesc 0 row).getD i 0) 0 > 3) = List.range 2 := by
        apply List.filter_eq_self.mpr
        intro a ha
        have ha2 : a < 2 := List.mem_range.mp ha
        rw [decide_eq_true_eq, hval a ha2]
        interval_cases a
        · exact lt_of_lt_of_le hv1 hv0
        · exact hv1
      rw [hfilter]
      norm_num
    rw [List.map_congr_left (fun r hr => hrow1 r (List.mem_range.mp hr)),
        sum_map_range]
    rw [Finset.sum_const, Finset.card_range, nsmul_eq_mul, mul_one]
    rw [div_self]
    have : (0 : ℚ) < (T.length : ℚ) := by exact_mod_cast hrows
    exact ne_of_gt this

/-- Witness for C8 at `T = P = [[5,4],[4,5]]`, `k = 2`: the general
characterisation and the exact value 1 for a perfect prediction whose
top-2 true ratings all exceed 3. -/
theorem precision_at_top_k_spec_witness :
    (∃ perm : ℕ → List ℕ,
      (∀ r, r < ([[5, 4], [4, 5]] : List (List ℚ)).length →
        (perm r).Perm (List.range 2) ∧
        List.Pairwise (fun a b =>
          (([[5, 4], [4, 5]] : List (List ℚ)).getD r []).getD b 0
            ≤ (([[5, 4], [4, 5]] : List (List ℚ)).getD r []).getD a 0) (perm r)) ∧
      precision_at_top_k [[5, 4], [4, 5]] [[5, 4], [4, 5]] 2
        = ((List.range ([[5, 4], [4, 5]] : List (List ℚ)).length).map (fun r =>
            (((List.range 2).filter (fun i =>
                (([[5, 4], [4, 5]] : List (List ℚ)).getD r []).getD
                  ((perm r).getD i 0) 0 > 3)).length : ℚ)
              / (2 : ℚ))).sum / (([[5, 4], [4, 5]] : List (List ℚ)).length : ℚ)) ∧
    precision_at_top_k [[5, 4], [4, 5]] [[5, 4], [4, 5]] 2 = 1 :=
  ⟨(precision_at_top_k_spec [[5, 4], [4, 5]] [[5, 4], [4, 5]] 2 2
      (by decide) (by decide) (by decide) (by decide)).1,
   (precision_at_top_k_spec [[5, 4], [4, 5]] [[5, 4], [4, 5]] 2 2
      (by decide) (by decide) (by decide) (by decide)).2 rfl rfl (by decide)⟩

/-- Dot product of two rating rows (one entry of `np.matmul(M, M.T)`). -/
def dotQ (xs ys : List ℚ) : ℚ := (List.zipWith (fun a b => a * b) xs ys).sum

/-- `np.linalg.norm(row)`: the L2 norm of a row
(`ColabrativeFiltering.get_top_k_users`, src/main.py line 22). -/
noncomputable def rowNorm (row : List ℚ) : ℝ :=
  Real.sqrt (((row.map (fun x => x * x)).sum : ℚ) : ℝ)

/-- Entry `(i, j)` of the denominator
`np.matmul(row_sums[:, None], row_sums[:, None].T)` (src/main.py line 24):
the outer product of the row-norm vector with itself. -/
noncomputable def normProd (M : List (List ℚ)) (i j : ℕ) : ℝ :=
  rowNorm (M.getD i []) * rowNorm (M.getD j [])

/-- Entry `(i, j)` of the cosine-similarity matrix `sim_mat`
(src/main.py lines 22-24): dot product of rows `i` and `j` divided by the
product of their L2 norms.  The float entry is `nan` exactly when the norm
product is zero (one of the two rows is all-zero; then the dot product is
zero too, so the division is `0/0`).  `np.sort`/`np.argsort` order `nan`
after every finite float, which is exactly the position of `⊤` in
`WithTop ℝ`, so the entry is modelled in `WithTop ℝ` with `⊤` standing for
`nan`: both the finite values and the sort order are faithful. -/
noncomputable def simEntry (M : List (List ℚ)) (i j : ℕ) : WithTop ℝ :=
  if normProd M i j = 0 then ⊤
  else ((((dotQ (M.getD i []) (M.getD j []) : ℚ) : ℝ) / normProd M i j : ℝ) : WithTop ℝ)

/-- Row `i` of the similarity matrix. -/
noncomputable def simRow (M : List (List ℚ)) (i : ℕ) : List (WithTop ℝ) :=
  (List.range M.length).map (fun j => simEntry M i j)

/-- `self.top_k_users = np.argsort(sim_mat, axis=1)[:, -(k + 1):-1]`
(src/main.py line 25), row `i`: positions `n-k-1 .. n-2` of the ascending
argsort (`nan` entries, i.e. `⊤`, sort last) — the 2nd through (k+1)-th
most similar users, in ascending similarity order, with the single
top-sorted entry (position `n-1`, normally the user itself) dropped. -/
noncomputable def top_k_users (M : List (List ℚ)) (k i : ℕ) : List ℕ :=
  ((argsortAsc (0 : WithTop ℝ) (simRow M i)).drop (M.length - (k + 1))).take k

/-- `self.top_k_sim = np.take_along_axis(sim_mat, self.top_k_users, axis=1)`
(src/main.py line 26), row `i`: the similarity values at the retained
indices. -/
noncomputable def top_k_sim (M : List (List ℚ)) (k i : ℕ) : List (WithTop ℝ) :=
  (top_k_users M k i).map (fun j => (simRow M i).getD j 0)

/-- C10: the norm-product denominator of the cosine-similarity matrix.  If
every user row has nonzero L2 norm, every denominator entry is nonzero
(the division is well defined); if row `i` is entirely zero, every
denominator entry of row `i` is zero (division by zero). -/
theorem normProd_spec (M : List (List ℚ)) :
    ((∀ i, i < M.length → rowNorm (M.getD i []) ≠ 0) →
      ∀ i j, i < M.length → j < M.length → normProd M i j ≠ 0) ∧
    (∀ i, i < M.length → (∀ x ∈ M.getD i [], x = 0) → ∀ j, normProd M i j = 0) := by
  constructor
  · intro hnz i j hi hj
    exact mul_ne_zero (hnz i hi) (hnz j hj)
  · intro i _ hzero j
    have hsum : ((M.getD i []).map (fun x => x * x)).sum = 0 := by
      apply List.sum_eq_zero
      intro y hy
      obtain ⟨z, hz, rfl⟩ := List.mem_map.mp hy
      rw [hzero z hz, mul_zero]
    unfold normProd rowNorm
    rw [hsum]
    simp

/-- Witness for C10 at `[[1,0],[0,1]]` (unit rows) and `[[0,0]]` (zero
row). -/
theorem normProd_spec_witness :
    normProd [[1, 0], [0, 1]] 0 1 ≠ 0 ∧ normProd [[0, 0]] 0 0 = 0 := by
  constructor
  · apply (normProd_spec [[1, 0], [0, 1]]).1 ?_ 0 1 (by decide) (by decide)
    intro i hi
    have hi2 : i < 2 := by simpa using hi
    interval_cases i <;> norm_num [rowNorm, Real.sqrt_one]
  · exact (normProd_spec [[0, 0]]).2 0 (by decide) (by decide) 0

/-- Concrete three-user matrix with unit-norm rows and pairwise distinct
similarities to user 0: `sim(0,·) = [1, 3/5, 0]` (all finite: no zero
row). -/
def mEx : List (List ℚ) := [[1, 0], [3 / 5, 4 / 5], [0, 1]]

lemma simEntry_mEx_00 : simEntry mEx 0 0 = ((1 : ℝ) : WithTop ℝ) := by
  have hnp : normProd mEx 0 0 = 1 := by
    norm_num [normProd, rowNorm, mEx, Real.sqrt_one]
  unfold simEntry
  rw [hnp]
  norm_num [dotQ, mEx, WithTop.coe_eq_coe]

lemma simEntry_mEx_01 : simEntry mEx 0 1 = ((3 / 5 : ℝ) : WithTop ℝ) := by
  have hnp : normProd mEx 0 1 = 1 := by
    norm_num [normProd, rowNorm, mEx, Real.sqrt_one]
  unfold simEntry
  rw [hnp]
  norm_num [dotQ, mEx, WithTop.coe_eq_coe]

lemma simEntry_mEx_02 : simEntry mEx 0 2 = ((0 : ℝ) : WithTop ℝ) := by
  have hnp : normProd mEx 0 2 = 1 := by
    norm_num [normProd, rowNorm, mEx, Real.sqrt_one]
  unfold simEntry
  rw [hnp]
  norm_num [dotQ, mEx, WithTop.coe_eq_coe]

lemma simRow_mEx : simRow mEx 0
    = [((1 : ℝ) : WithTop ℝ), ((3 / 5 : ℝ) : WithTop ℝ), ((0 : ℝ) : WithTop ℝ)] := by
  have h : mEx.length = 3 := by decide
  unfold simRow
  rw [h]
  rw [show List.range 3 = [0, 1, 2] by decide]
  simp only [List.map_cons, List.map_nil]
  rw [simEntry_mEx_00, simEntry_mEx_01, simEntry_mEx_02]

lemma argsortAsc_mEx :
    argsortAsc (0 : WithTop ℝ)
        [((1 : ℝ) : WithTop ℝ), ((3 / 5 : ℝ) : WithTop ℝ), ((0 : ℝ) : WithTop ℝ)]
      = [2, 1, 0] := by
  unfold argsortAsc
  rw [show (([((1 : ℝ) : WithTop ℝ), ((3 / 5 : ℝ) : WithTop ℝ),
        ((0 : ℝ) : WithTop ℝ)] : List (WithTop ℝ)).length) = 3 by simp,
      show List.range 3 = [0, 1, 2] by decide]
  simp only [List.insertionSort, List.orderedInsert]
  norm_num [WithTop.coe_le_coe]

/-- C5 counterexample: at the matrix `mEx` with `k = 2`, user 0's retained
similarity scores are `[0, 3/5]` — ascending, with the LEAST similar of the
two neighbours first — so the retained list is not "ordered by similarity
descending" as the claim states. -/
theorem top_k_sim_ascending_counterexample :
    top_k_sim mEx 2 0 = [((0 : ℝ) : WithTop ℝ), ((3 / 5 : ℝ) : WithTop ℝ)] ∧
    ((0 : ℝ) : WithTop ℝ) < ((3 / 5 : ℝ) : WithTop ℝ) := by
  have husers : top_k_users mEx 2 0 = [2, 1] := by
    unfold top_k_users
    rw [simRow_mEx, argsortAsc_mEx, show mEx.length = 3 by decide]
    rfl
  constructor
  · unfold top_k_sim
    rw [husers, simRow_mEx]
    norm_num
  · rw [WithTop.coe_lt_coe]
    norm_num

lemma simEntry_zeroRow_00 :
    simEntry [[1, 0], [3 / 5, 4 / 5], [0, 0]] 0 0 = ((1 : ℝ) : WithTop ℝ) := by
  have hnp : normProd [[1, 0], [3 / 5, 4 / 5], [0, 0]] 0 0 = 1 := by
    norm_num [normProd, rowNorm, Real.sqrt_one]
  unfold simEntry
  rw [hnp]
  norm_num [dotQ, WithTop.coe_eq_coe]

lemma simEntry_zeroRow_01 :
    simEntry [[1, 0], [3 / 5, 4 / 5], [0, 0]] 0 1 = ((3 / 5 : ℝ) : WithTop ℝ) := by
  have hnp : normProd [[1, 0], [3 / 5, 4 / 5], [0, 0]] 0 1 = 1 := by
    norm_num [normProd, rowNorm, Real.sqrt_one]
  unfold simEntry
  rw [hnp]
  norm_num [dotQ, WithTop.coe_eq_coe]

lemma simEntry_zeroRow_02 :
    simEntry [[1, 0], [3 / 5, 4 / 5], [0, 0]] 0 2 = ⊤ := by
  have hnp : normProd [[1, 0], [3 / 5, 4 / 5], [0, 0]] 0 2 = 0 := by
    norm_num [normProd, rowNorm, Real.sqrt_one, Real.sqrt_zero]
  unfold simEntry
  rw [hnp]
  simp

lemma simRow_zeroRow : simRow [[1, 0], [3 / 5, 4 / 5], [0, 0]] 0
    = [((1 : ℝ) : WithTop ℝ), ((3 / 5 : ℝ) : WithTop ℝ), ⊤] := by
  unfold simRow
  rw [show ([[1, 0], [3 / 5, 4 / 5], [0, 0]] : List (List ℚ)).length = 3 by decide,
      show List.range 3 = [0, 1, 2] by decide]
  simp only [List.map_cons, List.map_nil]
  rw [simEntry_zeroRow_00, simEntry_zeroRow_01, simEntry_zeroRow_02]

/-- Faithfulness of the `nan` model on the degenerate input the amended
theorem excludes: with an all-zero third row, user 0's similarity to it is
`nan` (`⊤` here), which `np.argsort` orders last; the slice `[-2:-1]` then
drops the `nan` position and retains user 0 THEMSELF — no self-exclusion.
This is why `top_k_users_spec` carries the strict-self-maximum hypothesis,
which fails here (`⊤` is not below the self-similarity 1). -/
lemma top_k_users_zero_row_eval :
    top_k_users [[1, 0], [3 / 5, 4 / 5], [0, 0]] 1 0 = [0] := by
  have hsort : argsortAsc (0 : WithTop ℝ)
      [((1 : ℝ) : WithTop ℝ), ((3 / 5 : ℝ) : WithTop ℝ), ⊤] = [1, 0, 2] := by
    unfold argsortAsc
    rw [show (([((1 : ℝ) : WithTop ℝ), ((3 / 5 : ℝ) : WithTop ℝ),
          (⊤ : WithTop ℝ)] : List (WithTop ℝ)).length) = 3 by simp,
        show List.range 3 = [0, 1, 2] by decide]
    simp only [List.insertionSort, List.orderedInsert]
    norm_num [WithTop.coe_le_coe, le_top]
  unfold top_k_users
  rw [simRow_zeroRow, hsort,
      show ([[1, 0], [3 / 5, 4 / 5], [0, 0]] : List (List ℚ)).length = 3 by decide]
  rfl

/-- C5 amended theorem: for a user `i` whose similarity row has pairwise
distinct values and whose self-similarity is the strict row maximum (the
generic situation: self-similarity is 1 and ties are degenerate; in
particular no other row may be all-zero, since its `nan` similarity — `⊤`
here — sorts above the self-similarity and would be retained instead), and
`k + 1 ≤` user count, the retained list `top_k_users` holds exactly the
`k` most similar users OTHER than `i` (self excluded by dropping the
top-ranked entry), ordered by similarity ASCENDING — from the `(k+1)`-th
most similar up to the 2nd most similar — and `top_k_sim` holds their
similarity scores in the same order. -/
theorem top_k_users_spec (M : List (List ℚ)) (k i : ℕ)
    (hik : i < M.length)
    (hk1 : k + 1 ≤ M.length)
    (hinj : ∀ a b, a < M.length → b < M.length →
        (simRow M i).getD a 0 = (simRow M i).getD b 0 → a = b)
    (hself : ∀ j, j < M.length → j ≠ i →
        (simRow M i).getD j 0 < (simRow M i).getD i 0) :
    (top_k_users M k i).length = k ∧
    (top_k_users M k i).Nodup ∧
    (∀ j ∈ top_k_users M k i, j < M.length) ∧
    i ∉ top_k_users M k i ∧
    List.Pairwise (fun a b => (simRow M i).getD a 0 < (simRow M i).getD b 0)
      (top_k_users M k i) ∧
    (∀ j, j < M.length → j ∉ top_k_users M k i → j ≠ i →
      ∀ a ∈ top_k_users M k i, (simRow M i).getD j 0 < (simRow M i).getD a 0) ∧
    top_k_sim M k i = (top_k_users M k i).map (fun j => (simRow M i).getD j 0) := by
  set n := M.length with hn
  set s := argsortAsc 0 (simRow M i) with hsdef
  have hrowlen : (simRow M i).length = n := by simp [simRow]
  have hslen : s.length = n := by rw [hsdef, argsortAsc_length, hrowlen]
  have hperm : s.Perm (List.range n) := by
    have h := argsortAsc_perm 0 (simRow M i)
    rwa [hrowlen] at h
  have hnodup : s.Nodup := hperm.nodup_iff.mpr (List.nodup_range n)
  have hmem : ∀ j, j ∈ s ↔ j < n := fun j => by rw [hperm.mem_iff, List.mem_range]
  have hsorted : List.Sorted
      (fun a b => (simRow M i).getD a 0 ≤ (simRow M i).getD b 0) s :=
    argsortAsc_sorted 0 (simRow M i)
  have hgetinj : ∀ (p q : Fin s.length), s.get p = s.get q → p = q :=
    fun p q h => List.nodup_iff_injective_get.mp hnodup h
  have hstrict : ∀ (p q : Fin s.length), (p : ℕ) < (q : ℕ) →
      (simRow M i).getD (s.get p) 0 < (simRow M i).getD (s.get q) 0 := by
    intro p q hpq
    have hle := List.pairwise_iff_get.mp hsorted p q hpq
    refine lt_of_le_of_ne hle ?_
    intro heq
    have hpmem : s.get p < n := (hmem _).mp (List.get_mem s (p : ℕ) p.isLt)
    have hqmem : s.get q < n := (hmem _).mp (List.get_mem s (q : ℕ) q.isLt)
    have heq2 := hgetinj p q (hinj _ _ hpmem hqmem heq)
    have hval : (p : ℕ) = (q : ℕ) := congrArg Fin.val heq2
    omega
  have hn1 : n - 1 < s.length := by omega
  have hlast : s.get ⟨n - 1, hn1⟩ = i := by
    by_contra hne2
    have hlmem : s.get ⟨n - 1, hn1⟩ < n := (hmem _).mp (List.get_mem s (n - 1) hn1)
    have hlt1 : (simRow M i).getD (s.get ⟨n - 1, hn1⟩) 0 < (simRow M i).getD i 0 :=
      hself _ hlmem hne2
    have hiin : i ∈ s := (hmem i).mpr hik
    obtain ⟨p, hp⟩ := List.get_of_mem hiin
    have hpne : (p : ℕ) ≠ n - 1 := by
      intro h
      apply hne2
      rw [← hp]
      congr 1
      exact Fin.ext h.symm
    have hplt : (p : ℕ) < n - 1 := by
      have := p.isLt
      omega
    have hlt2 := hstrict p ⟨n - 1, hn1⟩ hplt
    rw [hp] at hlt2
    exact absurd hlt2 (lt_asymm hlt1)
  have htkdef : top_k_users M k i = (s.drop (n - (k + 1))).take k := rfl
  have hdlen : (s.drop (n - (k + 1))).length = k + 1 := by
    rw [List.length_drop]
    omega
  have htklen : (top_k_users M k i).length = k := by
    rw [htkdef, List.length_take, hdlen]
    omega
  have hpossl : ∀ t, t < k → n - (k + 1) + t < s.length := by
    intro t ht
    omega
  have hpostk : ∀ t, t < k → t < (top_k_users M k i).length := by
    intro t ht
    rw [htklen]
    exact ht
  have hslice : ∀ (t : ℕ) (ht : t < k),
      (top_k_users M k i).get ⟨t, hpostk t ht⟩ = s.get ⟨n - (k + 1) + t, hpossl t ht⟩ := by
    intro t ht
    show ((s.drop (n - (k + 1))).take k).get ⟨t, hpostk t ht⟩
      = s.get ⟨n - (k + 1) + t, hpossl t ht⟩
    rw [List.get_eq_getElem, List.get_eq_getElem, List.getElem_take, List.getElem_drop]
  have hsub : (top_k_users M k i).Sublist s := by
    rw [htkdef]
    exact (List.take_sublist _ _).trans (List.drop_sublist _ _)
  have htknodup : (top_k_users M k i).Nodup := hnodup.sublist hsub
  have htkmem : ∀ j ∈ top_k_users M k i, j < n := fun j hj => (hmem j).mp (hsub.subset hj)
  have hmempos : ∀ j ∈ top_k_users M k i,
      ∃ t, ∃ ht : t < k, j = s.get ⟨n - (k + 1) + t, hpossl t ht⟩ := by
    intro j hj
    obtain ⟨t, hjt⟩ := List.get_of_mem hj
    have htk2 : (t : ℕ) < k := by
      have := t.isLt
      omega
    refine ⟨t, htk2, ?_⟩
    rw [← hjt]
    exact hslice (t : ℕ) htk2
  refine ⟨htklen, htknodup, htkmem, ?_, ?_, ?_, rfl⟩
  · intro hin
    obtain ⟨t, ht, hti⟩ := hmempos i hin
    have heq : s.get ⟨n - (k + 1) + t, hpossl t ht⟩ = s.get ⟨n - 1, hn1⟩ := by
      rw [← hti, hlast]
    have heq2 := hgetinj _ _ heq
    have hval : n - (k + 1) + t = n - 1 := congrArg Fin.val heq2
    omega
  · apply List.pairwise_iff_get.mpr
    intro p q hpq
    have hpk : (p : ℕ) < k := by
      have := p.isLt
      omega
    have hqk : (q : ℕ) < k := by
      have := q.isLt
      omega
    rw [show (top_k_users M k i).get p = s.get ⟨n - (k + 1) + (p : ℕ), hpossl _ hpk⟩ from
          hslice (p : ℕ) hpk,
        show (top_k_users M k i).get q = s.get ⟨n - (k + 1) + (q : ℕ), hpossl _ hqk⟩ from
          hslice (q : ℕ) hqk]
    have hpq2 : (p : ℕ) < (q : ℕ) := hpq
    exact hstrict _ _ (by show n - (k + 1) + (p : ℕ) < n - (k + 1) + (q : ℕ); omega)
  · intro j hj hnotin hne a ha
    obtain ⟨t, ht, hta⟩ := hmempos a ha
    have hjin : j ∈ s := (hmem j).mpr hj
    obtain ⟨q, hq⟩ := List.get_of_mem hjin
    have hqne : (q : ℕ) ≠ n - 1 := by
      intro h
      apply hne
      rw [← hq, ← hlast]
      congr 1
      exact Fin.ext h
    have hqlow : (q : ℕ) < n - (k + 1) := by
      by_contra hge
      push_neg at hge
      have hq1 : (q : ℕ) < n := by
        have := q.isLt
        omega
      have ht2 : (q : ℕ) - (n - (k + 1)) < k := by omega
      apply hnotin
      have hgoal : (top_k_users M k i).get ⟨(q : ℕ) - (n - (k + 1)), hpostk _ ht2⟩
          = s.get q := by
        rw [hslice _ ht2]
        congr 1
        exact Fin.ext (by
          show n - (k + 1) + ((q : ℕ) - (n - (k + 1))) = (q : ℕ)
          omega)
      rw [← hq, ← hgoal]
      exact List.get_mem _ _ _
    rw [← hq, hta]
    exact hstrict q ⟨n - (k + 1) + t, hpossl t ht⟩ (by show (q : ℕ) < n - (k + 1) + t; omega)

/-- Witness for C5's amended theorem at `mEx`, user 0, `k = 1`: the
single retained neighbour is user 1 (similarity 3/5), the 2nd most similar
after the excluded self. -/
theorem top_k_users_spec_witness :
    (top_k_users mEx 1 0).length = 1 ∧
    (top_k_users mEx 1 0).Nodup ∧
    (∀ j ∈ top_k_users mEx 1 0, j < mEx.length) ∧
    0 ∉ top_k_users mEx 1 0 ∧
    List.Pairwise (fun a b => (simRow mEx 0).getD a 0 < (simRow mEx 0).getD b 0)
      (top_k_users mEx 1 0) ∧
    (∀ j, j < mEx.length → j ∉ top_k_users mEx 1 0 → j ≠ 0 →
      ∀ a ∈ top_k_users mEx 1 0, (simRow mEx 0).getD j 0 < (simRow mEx 0).getD a 0) ∧
    top_k_sim mEx 1 0 = (top_k_users mEx 1 0).map (fun j => (simRow mEx 0).getD j 0) := by
  apply top_k_users_spec mEx 1 0 (by decide) (by decide)
  · intro a b ha hb h
    have ha3 : a < 3 := by simpa [mEx] using ha
    have hb3 : b < 3 := by simpa [mEx] using hb
    rw [simRow_mEx] at h
    interval_cases a <;> interval_cases b <;>
      first | rfl | (exfalso; norm_num [WithTop.coe_eq_coe] at h)
  · intro j hj hne
    have hj3 : j < 3 := by simpa [mEx] using hj
    rw [simRow_mEx]
    interval_cases j
    · exact absurd rfl hne
    · norm_num [WithTop.coe_lt_coe]
    · norm_num [WithTop.coe_lt_coe]

end RecSys
